import Mathlib

/-!
Verification of the `memcell` crate: a `MemoryCell<T>` holding a current
value and the immediately preceding value, if any (src/src/lib.rs).

The Rust struct and its methods are shallowly embedded as a Lean structure
and pure functions.  Methods taking `&mut self` become functions returning
the new cell; methods taking `&self` are embedded as functions returning a
pair of the read result and the (borrowed, hence unchanged) cell; methods
taking `self` by value consume the cell and return only the extracted data.
-/

/-- Rust: `struct MemoryCell<T> { current: T, last_val: Option<T> }`.
The field accessor `MemoryCell.current` also plays the role of the Rust
method `current(&self) -> &T`, whose body is `&self.current`. -/
structure MemoryCell (T : Type) where
  current : T
  last_val : Option T
deriving Repr, DecidableEq

namespace MemoryCell

variable {T : Type}

/-- Rust: `pub const fn new(current: T) -> Self { Self { current, last_val: None } }`. -/
def new (current : T) : MemoryCell T :=
  ⟨current, none⟩

/-- Rust: `pub const fn with_last(current: T, last_val: Option<T>) -> Self`. -/
def with_last (current : T) (last_val : Option T) : MemoryCell T :=
  ⟨current, last_val⟩

/-- Rust: `pub fn update(&mut self, new: T)`, whose body is
`self.last_val = Some(mem::replace(&mut self.current, new));`:
the old current value becomes the previous value and `new` is stored. -/
def update (cell : MemoryCell T) (new : T) : MemoryCell T :=
  ⟨new, some cell.current⟩

/-- Rust: `pub const fn last(&self) -> &Option<T> { &self.last_val }`. -/
def last (cell : MemoryCell T) : Option T :=
  cell.last_val

/-- Rust: `pub const fn has_previous(&self) -> bool { self.last_val.is_some() }`. -/
def has_previous (cell : MemoryCell T) : Bool :=
  cell.last_val.isSome

/-- Rust: `pub fn take_current(self) -> T { self.current }`. -/
def take_current (cell : MemoryCell T) : T :=
  cell.current

/-- Rust: `pub fn take_last(self) -> Option<T> { self.last_val }`. -/
def take_last (cell : MemoryCell T) : Option T :=
  cell.last_val

/-- Rust: `pub fn take_both(self) -> (T, Option<T>) { (self.current, self.last_val) }`. -/
def take_both (cell : MemoryCell T) : T × Option T :=
  (cell.current, cell.last_val)

/-- Apply a sequence of `update` calls, in order, to a cell. -/
def runUpdates (cell : MemoryCell T) (vs : List T) : MemoryCell T :=
  vs.foldl update cell

/-- The read-only accessors of the cell (Rust methods taking `&self`). -/
inductive ReadOp : Type
  | getCurrent : ReadOp
  | getLast : ReadOp
  | getHasPrevious : ReadOp
deriving Repr, DecidableEq

/-- Rust `current(&self)` as a state-passing read: the borrow returns the
value and leaves the cell as it was. -/
def readCurrent (cell : MemoryCell T) : T × MemoryCell T :=
  (cell.current, cell)

/-- Rust `last(&self)` as a state-passing read. -/
def readLast (cell : MemoryCell T) : Option T × MemoryCell T :=
  (cell.last_val, cell)

/-- Rust `has_previous(&self)` as a state-passing read. -/
def readHasPrevious (cell : MemoryCell T) : Bool × MemoryCell T :=
  (cell.last_val.isSome, cell)

/-- Thread a cell through a sequence of read-only accessor calls. -/
def runReads (cell : MemoryCell T) : List ReadOp → MemoryCell T
  | [] => cell
  | ReadOp.getCurrent :: ops => runReads (readCurrent cell).2 ops
  | ReadOp.getLast :: ops => runReads (readLast cell).2 ops
  | ReadOp.getHasPrevious :: ops => runReads (readHasPrevious cell).2 ops

/-- The derived `Clone` implementation: `#[derive(Clone)]` clones each field,
using `T::clone` on `current` and `Option<T>::clone` (which maps `T::clone`
over the option) on `last_val`.  The clone operation of the value type is
passed in as `cloneT`. -/
def cloneWith (cloneT : T → T) (cell : MemoryCell T) : MemoryCell T :=
  ⟨cloneT cell.current, Option.map cloneT cell.last_val⟩

end MemoryCell

open MemoryCell

/-- Helper: applying a non-empty update sequence `vs ++ [vn]` to any cell
leaves exactly the final value as current and the one-before-final value
(the cell's current when only `vn` remains) as previous. -/
theorem runUpdates_append_singleton {T : Type} (c : MemoryCell T) (vs : List T) (vn : T) :
    runUpdates c (vs ++ [vn]) =
      ⟨vn, some (List.getLast (c.current :: vs) (List.cons_ne_nil _ _))⟩ := by
  induction vs generalizing c with
  | nil => rfl
  | cons v vs ih =>
    have h1 : runUpdates c ((v :: vs) ++ [vn]) = runUpdates (update c v) (vs ++ [vn]) := rfl
    rw [h1, ih (update c v)]
    congr 1

/-- Claim C1: for every initial value v0 and every non-empty update sequence
v1, ..., vn applied to `new v0`, after the final update the whole cell state
equals ⟨vn, some v_{n-1}⟩ (where v_{n-1} is the last of v0, ..., v_{n-1});
hence `current` returns vn, `last` returns some v_{n-1}, and no earlier
value is observable through any accessor, since every accessor is a
function of this state. -/
theorem new_runUpdates_shift {T : Type} (v0 : T) (vs : List T) (vn : T) :
    runUpdates (new v0) (vs ++ [vn]) =
        ⟨vn, some (List.getLast (v0 :: vs) (List.cons_ne_nil _ _))⟩ ∧
      (runUpdates (new v0) (vs ++ [vn])).current = vn ∧
      (runUpdates (new v0) (vs ++ [vn])).last =
        some (List.getLast (v0 :: vs) (List.cons_ne_nil _ _)) := by
  have h := runUpdates_append_singleton (new v0) vs vn
  have hc : (new v0).current = v0 := rfl
  rw [hc] at h
  exact ⟨h, by rw [h], by rw [h]; rfl⟩

/-- Claim C2: a single `update new` on an arbitrary cell state ⟨c, p⟩
yields exactly the state ⟨new, some c⟩: current becomes `new`, previous
becomes `some c`, and the old previous value p appears nowhere in the
resulting cell. -/
theorem update_shifts {T : Type} (cell : MemoryCell T) (v : T) :
    update cell v = ⟨v, some cell.current⟩ ∧
      (update cell v).current = v ∧
      (update cell v).last = some cell.current := by
  exact ⟨rfl, rfl, rfl⟩

/-- Claim C3: a cell constructed with `new v` has current value v, reports
`has_previous = false`, and `last` is `none`. -/
theorem new_spec {T : Type} (v : T) :
    (new v).current = v ∧ has_previous (new v) = false ∧ last (new v) = none := by
  exact ⟨rfl, rfl, rfl⟩

/-- Claim C4: `with_last c (some p)` has current c, `last = some p` and
`has_previous = true`; and `with_last c none` is equal to `new c`. -/
theorem with_last_spec {T : Type} (c p : T) :
    (with_last c (some p)).current = c ∧
      last (with_last c (some p)) = some p ∧
      has_previous (with_last c (some p)) = true ∧
      with_last c none = new c := by
  exact ⟨rfl, rfl, rfl, rfl⟩

/-- Claim C5: on every cell state, `take_current` returns exactly what the
`current` accessor would return, `take_last` returns exactly what `last`
would return, and `take_both` returns exactly the pair (current, last),
current first, previous second. -/
theorem take_spec {T : Type} (cell : MemoryCell T) :
    take_current cell = cell.current ∧
      take_last cell = last cell ∧
      take_both cell = (cell.current, last cell) := by
  exact ⟨rfl, rfl, rfl⟩

/-- Claim C6: in every cell state (so in particular every reachable one,
and preserved by every operation), `has_previous` is true exactly when
`last` is a present (some) value. -/
theorem has_previous_iff_last_isSome {T : Type} (cell : MemoryCell T) :
    has_previous cell = true ↔ (last cell).isSome = true := by
  constructor <;> exact fun h => h

/-- Helper: once the previous value is present it stays present under any
further sequence of updates. -/
theorem runUpdates_preserves_isSome {T : Type} (c : MemoryCell T) (vs : List T)
    (h : c.last_val.isSome = true) : ((runUpdates c vs).last_val).isSome = true := by
  induction vs generalizing c with
  | nil => exact h
  | cons v vs ih => exact ih (update c v) rfl

/-- Claim C7: for a cell created with `new v0`, the previous value is
absent exactly when no update has ever been applied: `last` is `none`
precisely for the empty update sequence. -/
theorem new_last_none_iff_no_update {T : Type} (v0 : T) (vs : List T) :
    last (runUpdates (new v0) vs) = none ↔ vs = [] := by
  constructor
  · intro h
    cases vs with
    | nil => rfl
    | cons v rest =>
      exfalso
      have hs : ((runUpdates (update (new v0) v) rest).last_val).isSome = true :=
        runUpdates_preserves_isSome (update (new v0) v) rest rfl
      have he : runUpdates (new v0) (v :: rest) = runUpdates (update (new v0) v) rest := rfl
      rw [last, he] at h
      rw [h] at hs
      exact Bool.false_ne_true hs
  · intro h
    rw [h]
    rfl

/-- Claim C8: the read-only accessors (`current`, `last`, `has_previous`)
never change the cell: threading a cell through any sequence of accessor
calls, in any order, returns the cell unchanged, so both the current and
the previous value are exactly what they were before. -/
theorem runReads_id {T : Type} (cell : MemoryCell T) (ops : List ReadOp) :
    runReads cell ops = cell ∧
      (runReads cell ops).current = cell.current ∧
      (runReads cell ops).last_val = cell.last_val := by
  have h : runReads cell ops = cell := by
    induction ops generalizing cell with
    | nil => rfl
    | cons op ops ih => cases op <;> exact ih cell
  exact ⟨h, by rw [h], by rw [h]⟩

/-- Claim C9: every operation of the cell is a total function: on every
cell state and every argument it completes and returns a result, with no
error or failure branch (each embedded operation is a total Lean function,
so a result always exists and is unique). -/
theorem all_operations_total {T : Type} (cell : MemoryCell T) (v : T) (p : Option T) :
    (∃ c, new v = c) ∧ (∃ c, with_last v p = c) ∧
      (∃ c, update cell v = c) ∧ (∃ x, cell.current = x) ∧
      (∃ x, last cell = x) ∧ (∃ b, has_previous cell = b) ∧
      (∃ x, take_current cell = x) ∧ (∃ x, take_last cell = x) ∧
      (∃ x, take_both cell = x) := by
  exact ⟨⟨_, rfl⟩, ⟨_, rfl⟩, ⟨_, rfl⟩, ⟨_, rfl⟩, ⟨_, rfl⟩, ⟨_, rfl⟩, ⟨_, rfl⟩, ⟨_, rfl⟩, ⟨_, rfl⟩⟩

/-- Claim C10: for any value type whose clone operation returns a value
equal to its argument, the derived clone of a `MemoryCell` has the same
current value and the same previous value as the original, and the
original cell is left intact (cloning goes through `&self` and builds a
fresh cell, never consuming or mutating the original). -/
theorem cloneWith_spec {T : Type} (cloneT : T → T) (cell : MemoryCell T)
    (h : ∀ x, cloneT x = x) :
    (cloneWith cloneT cell).current = cell.current ∧
      (cloneWith cloneT cell).last_val = cell.last_val ∧
      cloneWith cloneT cell = cell := by
  have hc : (cloneWith cloneT cell).current = cell.current := h cell.current
  have hl : (cloneWith cloneT cell).last_val = cell.last_val := by
    cases hv : cell.last_val with
    | none => simp [cloneWith, hv]
    | some x => simp [cloneWith, hv, h x]
  refine ⟨hc, hl, ?_⟩
  calc cloneWith cloneT cell
      = ⟨(cloneWith cloneT cell).current, (cloneWith cloneT cell).last_val⟩ := rfl
    _ = ⟨cell.current, cell.last_val⟩ := by rw [hc, hl]
    _ = cell := rfl

/-- Witness for C10: cloning the concrete cell ⟨3, some 5⟩ over Nat with
the identity clone function reproduces both fields and the whole cell. -/
theorem cloneWith_spec_witness :
    (cloneWith id (⟨3, some 5⟩ : MemoryCell Nat)).current = (3 : Nat) ∧
      (cloneWith id (⟨3, some 5⟩ : MemoryCell Nat)).last_val = some 5 ∧
      cloneWith id (⟨3, some 5⟩ : MemoryCell Nat) = ⟨3, some 5⟩ :=
  cloneWith_spec id (⟨3, some 5⟩ : MemoryCell Nat) (fun _ => rfl)
